import Mathlib

/-!
# Verification of the mixcloud-uploader backend

A shallow embedding, in Lean 4, of the decision logic of
`src/mixcloud_backend.py` (classes `MixcloudAuth` and `MixcloudUploader`)
and of the front-end glue in `src/backend.py` (`upload_show`), together
with theorems settling the specification claims about them.

Python strings are modelled as Lean `String` / `List Char`; `None` as
`Option.none`; Python truthiness of strings and lists is modelled
explicitly.  `str.lower` is modelled by `Char.toLower`, which agrees with
Python on ASCII.  The fuzzy matcher `difflib.get_close_matches` is
modelled faithfully for inputs below difflib's autojunk threshold
(queries shorter than 200 characters): chains of pairwise equal
characters (`chainLen`), the best-block scan of
`SequenceMatcher.find_longest_match` (`bestBlock`), the recursive block
decomposition underlying `get_matching_blocks` (`matchTotal`) and the
similarity ratio `2*M/T` (`ratioQ`, exact rational arithmetic; CPython's
float arithmetic agrees with the rational comparisons involved because
the rationals in play have small denominators).  `quick_ratio` and
`real_quick_ratio` are upper bounds of `ratio`, so the conjunction of
cutoff tests in `get_close_matches` is equivalent to the `ratio` test
alone and is modelled as such.
-/

namespace MixcloudUploader

/-! ## Python string primitives -/

/-- Python `str` truthiness: a string is falsy iff empty. -/
def strTruthy (s : String) : Bool := s ≠ ""

/-- Truthiness of an optional string (`None` and `""` are falsy). -/
def optStrTruthy (x : Option String) : Bool :=
  match x with
  | none => false
  | some s => strTruthy s

/-- Python `x or y` for an optional string `x` and string `y`. -/
def pyOrStr (x : Option String) (y : String) : String :=
  match x with
  | none => y
  | some s => if s = "" then y else s

/-- Python `x or y` for an optional list `x` and list `y`. -/
def pyOrList (x : Option (List String)) (y : List String) : List String :=
  match x with
  | none => y
  | some l => if l = [] then y else l

/-- The ASCII whitespace characters stripped by Python `str.strip()`. -/
def isPyWs (c : Char) : Bool :=
  c = ' ' ∨ c = '\t' ∨ c = '\n' ∨ c = '\x0d' ∨ c = '\x0b' ∨ c = '\x0c'

/-- Python `s.strip()` (ASCII whitespace). -/
def pyStrip (s : String) : String :=
  ⟨((s.data.dropWhile isPyWs).reverse.dropWhile isPyWs).reverse⟩

/-- Python `s.lower()` on the character list (ASCII case mapping). -/
def pyLowerD (s : String) : List Char := s.data.map Char.toLower

/-- `os.path.basename`: the part of the path after the last `/`. -/
def basename (p : String) : String :=
  ⟨(p.data.reverse.takeWhile (fun c => c ≠ '/')).reverse⟩

/-- Python `s.replace(".mp3", "")`: removes every (left-to-right,
non-overlapping) occurrence of the substring `".mp3"`.
Used at `mixcloud_backend.py:186`. -/
def removeDotMp3 : List Char → List Char
  | '.' :: 'm' :: 'p' :: '3' :: rest => removeDotMp3 rest
  | c :: rest => c :: removeDotMp3 rest
  | [] => []

/-- Python `s.zfill(w)`: left-pad with `'0'` to width `w`, keeping a
leading sign character in front of the padding. -/
def zfill (s : String) (w : Nat) : String :=
  if w ≤ s.length then s
  else
    match s.data with
    | c :: cs =>
      if c = '-' ∨ c = '+' then ⟨c :: (List.replicate (w - s.length) '0' ++ cs)⟩
      else ⟨List.replicate (w - s.length) '0' ++ s.data⟩
    | [] => ⟨List.replicate w '0'⟩

/-- Python f-string interpolation of a possibly-`None` string:
`None` renders as the literal text `"None"`. -/
def pyFStrOpt : Option String → String
  | none => "None"
  | some s => s

/-- Python `<` on strings: lexicographic comparison of code points. -/
def pyStrLt : List Char → List Char → Bool
  | [], [] => false
  | [], _ :: _ => true
  | _ :: _, [] => false
  | c :: cs, d :: ds => if c = d then pyStrLt cs ds else decide (c < d)

/-! ## The difflib model

`difflib.get_close_matches(word, possibilities, n=1, cutoff=0.6)` as used
at `mixcloud_backend.py:143` and `:170`.  In `SequenceMatcher`, `a` is a
possibility and `b` is the query word. -/

/-- Do `a[i]` and `b[j]` exist and coincide? -/
def okMatch (a b : List Char) (i j : Nat) : Bool :=
  match a[i]?, b[j]? with
  | some c, some d => c = d
  | _, _ => false

/-- Length of the chain of pairwise equal characters ending at `(i, j)`
and staying inside `[alo, _] × [blo, _]`; this is the value
`newj2len[j]` in `SequenceMatcher.find_longest_match`
(`j2len.get(j-1, 0) + 1` on a match, absent otherwise). -/
def chainLen (a b : List Char) (alo blo : Nat) : Nat → Nat → Nat
  | 0, j => if okMatch a b 0 j then 1 else 0
  | i + 1, j =>
    if okMatch a b (i + 1) j then
      match j with
      | 0 => 1
      | j' + 1 =>
        if alo ≤ i ∧ blo ≤ j' then chainLen a b alo blo i j' + 1 else 1
    else 0

/-- All index pairs `(i, j)` with `alo ≤ i < ahi`, `blo ≤ j < bhi`, in
the iteration order of `find_longest_match` (`i` outer, `j` inner). -/
def indexPairs (alo ahi blo bhi : Nat) : List (Nat × Nat) :=
  (List.range' alo (ahi - alo)).flatMap fun i =>
    (List.range' blo (bhi - blo)).map fun j => (i, j)

/-- The best-block scan over a list of index pairs, carrying the current
best `(besti, bestj, bestsize)`: the best block is replaced iff the
chain ending at `(i, j)` is strictly longer (`if k > bestsize`). -/
def bbGo (a b : List Char) (alo blo : Nat) :
    List (Nat × Nat) → Nat → Nat → Nat → Nat × Nat × Nat
  | [], bi, bj, bk => (bi, bj, bk)
  | ij :: rest, bi, bj, bk =>
    if bk < chainLen a b alo blo ij.1 ij.2 then
      bbGo a b alo blo rest
        (ij.1 + 1 - chainLen a b alo blo ij.1 ij.2)
        (ij.2 + 1 - chainLen a b alo blo ij.1 ij.2)
        (chainLen a b alo blo ij.1 ij.2)
    else bbGo a b alo blo rest bi bj bk

/-- `SequenceMatcher.find_longest_match(alo, ahi, blo, bhi)` restricted
to the no-junk case (the trailing extension loops of the CPython source
are provably no-ops then): the longest matching block `(besti, bestj,
bestsize)`, ties resolved to the earliest `(i, j)`. -/
def bestBlock (a b : List Char) (alo ahi blo bhi : Nat) : Nat × Nat × Nat :=
  bbGo a b alo blo (indexPairs alo ahi blo bhi) alo blo 0

/-- Total size `M` of the matching blocks of
`SequenceMatcher.get_matching_blocks` on the window
`[alo, ahi) × [blo, bhi)`: recursively the best block plus the totals on
both sides.  `fuel` only bounds the recursion depth; every call made
with `fuel ≥ (ahi - alo) + (bhi - blo)` is exact. -/
def matchTotal (a b : List Char) : Nat → Nat → Nat → Nat → Nat → Nat
  | 0, _, _, _, _ => 0
  | fuel + 1, alo, ahi, blo, bhi =>
    match bestBlock a b alo ahi blo bhi with
    | (bi, bj, k) =>
      if k = 0 then 0
      else matchTotal a b fuel alo bi blo bj + k +
        matchTotal a b fuel (bi + k) ahi (bj + k) bhi

/-- `M` for the full pair of sequences. -/
def matchTotalFull (a b : List Char) : Nat :=
  matchTotal a b (a.length + b.length + 1) 0 a.length 0 b.length

/-- Numerator of `SequenceMatcher.ratio()` as an exact rational
`2*M/T`; `_calculate_ratio` returns `1` when both sequences are empty. -/
def ratioNum (a b : List Char) : Nat :=
  if a.length + b.length = 0 then 1 else 2 * matchTotalFull a b

/-- Denominator of `SequenceMatcher.ratio()`: `T = len(a) + len(b)`,
and `1` in the both-empty case.  Always positive. -/
def ratioDen (a b : List Char) : Nat :=
  if a.length + b.length = 0 then 1 else a.length + b.length

/-- The cutoff test of `get_close_matches` with `cutoff=0.6`:
`ratio ≥ 3/5`, by cross-multiplication. -/
def cutoffOK (a b : List Char) : Bool :=
  3 * ratioDen a b ≤ 5 * ratioNum a b

/-- `ratio(x) < ratio(y)` for possibilities `x`, `y` against the word
`w`, by cross-multiplication. -/
def ratioLtB (w x y : List Char) : Bool :=
  ratioNum x w * ratioDen y w < ratioNum y w * ratioDen x w

/-- `ratio(x) = ratio(y)`, by cross-multiplication. -/
def ratioEqB (w x y : List Char) : Bool :=
  ratioNum x w * ratioDen y w = ratioNum y w * ratioDen x w

/-- Strict comparison of scored possibilities `(ratio(x), x)` as Python
tuples, used by `heapq.nlargest` / `max` inside `get_close_matches`. -/
def scoreGt (w x y : List Char) : Bool :=
  ratioLtB w y x || (ratioEqB w x y && pyStrLt y x)

/-- CPython `max` over the scored, cutoff-passing possibilities: the
running best is replaced only on strictly greater `(score, string)`
tuples, so the first element wins ties. -/
def pickBest (w : List Char) (p : List Char) (ps : List (List Char)) : List Char :=
  ps.foldl (fun best x => if scoreGt w x best then x else best) p

/-- `get_close_matches(word, possibilities, n=1, cutoff=0.6)`, returning
the single best possibility (or none): filter by the cutoff, then take
the maximum under the Python tuple order `(score, string)`. -/
def closeMatches1 (w : List Char) (xs : List (List Char)) : Option (List Char) :=
  match xs.filter (fun x => cutoffOK x w) with
  | [] => none
  | p :: ps => some (pickBest w p ps)

/-! ## Data model and metadata resolution -/

/-- One row of the show catalog (`load_metadata`,
`mixcloud_backend.py:119-136`): `{"bio": ..., "tags": ..., "host": ...}`. -/
structure ShowRecord where
  bio : String
  host : String
  tags : List String
deriving DecidableEq, Repr

/-- The record used for a metadata miss: `{}` with the `.get` defaults
`""` / `[]` applied (`mixcloud_backend.py:156,188-190`). -/
def emptyRecord : ShowRecord := ⟨"", "", []⟩

/-- The catalog: `self.metadata`, a dict from show name to record,
modelled as an association list in insertion order. -/
abbrev Catalog := List (String × ShowRecord)

/-- Dict lookup `self.metadata[name]` (first binding of the key). -/
def lookupRecord (metadata : Catalog) (k : String) : ShowRecord :=
  match metadata.find? (fun p => decide (p.1 = k)) with
  | some p => p.2
  | none => emptyRecord

/-- `MixcloudUploader.find_best_match_name` (`mixcloud_backend.py:138-149`):
fuzzy-match the lower-cased query against the lower-cased catalog keys
(`candidates = list(self.metadata.keys())`), then recover the first
original-cased key with that lower-casing (the final `for` loop). -/
def find_best_match_name (metadata : Catalog) (query : String) : Option String :=
  if (metadata.map Prod.fst).isEmpty then none
  else
    match closeMatches1 (pyLowerD query) ((metadata.map Prod.fst).map pyLowerD) with
    | none => none
    | some m => (metadata.map Prod.fst).find? (fun name => decide (pyLowerD name = m))

/-- `MixcloudUploader.find_best_match_meta` (`mixcloud_backend.py:151-156`). -/
def find_best_match_meta (metadata : Catalog) (name : String) :
    ShowRecord × String :=
  match find_best_match_name metadata name with
  | some matched => (lookupRecord metadata matched, matched)
  | none => (emptyRecord, name)

/-! ## Request assembly: the pure core of `MixcloudUploader.upload`
(`mixcloud_backend.py:180-214`) -/

/-- The arguments of `upload(mp3_path, title, host, tags, date_str)`;
the optional ones default to `None`. -/
structure UploadCall where
  mp3Path : String
  title : Option String
  host : Option String
  tags : Option (List String)
  dateStr : Option String
deriving DecidableEq, Repr

/-- The content assembled for the outbound multipart request. -/
structure BuiltRequest where
  /-- `matched_name`: the show name after fuzzy resolution. -/
  matchedName : String
  /-- `final_host = host or csv_host`. -/
  finalHost : String
  /-- `final_tags = tags or csv_tags[:5]`. -/
  finalTags : List String
  /-- `data["description"]`. -/
  description : String
  /-- `data["name"] = full_show_title`. -/
  displayTitle : String
  /-- The values of `data["tags-0-tag"], data["tags-1-tag"], ...`. -/
  tagFields : List String
deriving DecidableEq, Repr

/-- `show_name = title or os.path.basename(mp3_path).replace(".mp3", "")`
(`mixcloud_backend.py:186`). -/
def resolvedShowName (mp3Path : String) (title : Option String) : String :=
  pyOrStr title ⟨removeDotMp3 (basename mp3Path).data⟩

/-- The tracklist line of the description (`mixcloud_backend.py:199-201`):
`matched_name.lower().replace(' ', '-')` inside the dublab URL. -/
def tracklistLine (matchedName dateStr : String) : String :=
  "Tracklist: http://dublab.cat/shows/" ++
    ⟨(pyLowerD matchedName).map (fun c => if c = ' ' then '-' else c)⟩ ++
    "/" ++ dateStr

/-- The default description (`mixcloud_backend.py:202`). -/
def defaultDescription : String := "Uploaded via Mixcloud Uploader"

/-- Request assembly: lines 186-207 of `mixcloud_backend.py`, the pure
part of `upload` between the mp3 open and the submission. -/
def buildRequest (metadata : Catalog) (c : UploadCall) : BuiltRequest :=
  let showName := resolvedShowName c.mp3Path c.title
  let mm := find_best_match_meta metadata showName
  let meta := mm.1
  let matchedName := mm.2
  let bio := pyStrip meta.bio
  let csvHost := pyStrip meta.host
  let csvTags := meta.tags
  let finalHost := pyOrStr c.host csvHost
  let finalTags := pyOrList c.tags (csvTags.take 5)
  let descriptionParts :=
    (if bio ≠ "" then [bio] else []) ++
    (if optStrTruthy c.dateStr then
       [tracklistLine matchedName (pyFStrOpt c.dateStr)]
     else [])
  let joined := String.intercalate "\n\n" descriptionParts
  let description := if joined = "" then defaultDescription else joined
  let fullShowTitle :=
    matchedName ++ " " ++ pyFStrOpt c.dateStr ++ " w/ " ++ finalHost
  { matchedName := matchedName
    finalHost := finalHost
    finalTags := finalTags
    description := description
    displayTitle := fullShowTitle
    tagFields := finalTags.take 5 }

/-! ## Token lifecycle and response interpretation -/

/-- The credential state: the token file on disk (`none` = absent) and
the in-memory `self.token` of `MixcloudAuth`. -/
structure AuthState where
  tokenFile : Option String
  token : Option String
deriving DecidableEq, Repr

/-- `TokenStore.get`: the durable store reports a token iff the file
exists and strips to a non-empty string (`mixcloud_backend.py:43-45`). -/
def storeGet (st : AuthState) : Option String :=
  match st.tokenFile with
  | none => none
  | some content =>
    let t := pyStrip content
    if t = "" then none else some t

/-- `MixcloudAuth.get_token` (`mixcloud_backend.py:40-51`): return the
in-memory token if truthy, else read the file, else run the OAuth flow
(whose result is `flowTok`) and persist its token. -/
def get_token (st : AuthState) (flowTok : String) : String × AuthState :=
  let memTok := st.token.getD ""
  if memTok ≠ "" then (memTok, st)
  else
    let readTok :=
      match st.tokenFile with
      | some content => pyStrip content
      | none => memTok
    if readTok ≠ "" then (readTok, { st with token := some readTok })
    else (flowTok, { tokenFile := some flowTok, token := some flowTok })

/-- Response interpretation of `upload` (`mixcloud_backend.py:222-235`)
over a stream of pending HTTP responses: exactly one response is
consumed per call (`none` when the stream is exhausted).  `200` →
success; `401`/`403` → remove the token file, clear the in-memory token,
report failure; anything else → failure without state change. -/
def uploadSubmit (st : AuthState) (resps : List Nat) :
    Option (Bool × AuthState × List Nat) :=
  match resps with
  | [] => none
  | status :: rest =>
    if status = 200 then some (true, st, rest)
    else if status = 401 ∨ status = 403 then
      some (false, ⟨none, none⟩, rest)
    else some (false, st, rest)

/-- The per-call outcome of `upload`: the request built from the catalog
and call arguments (lines 186-214), and the interpretation of the single
submission's response (lines 216-235). -/
def uploadOutcome (metadata : Catalog) (c : UploadCall) (st : AuthState)
    (status : Nat) : BuiltRequest × Bool × AuthState :=
  match uploadSubmit st [status] with
  | some (ok, st', _) => (buildRequest metadata c, ok, st')
  | none => (buildRequest metadata c, false, st)

/-! ## OAuth code-for-token exchange -/

/-- The token endpoint's reply: HTTP status and the value of the
`access_token` field of the JSON body (`none` = field absent). -/
structure TokenResponse where
  status : Nat
  accessToken : Option String
deriving DecidableEq, Repr

/-- The exchange step of `MixcloudAuth.run_oauth_flow`
(`mixcloud_backend.py:97-105`): non-200 raises, a missing or falsy
`access_token` raises, otherwise the token is returned. -/
def oauthExchange (r : TokenResponse) : Except String String :=
  if r.status ≠ 200 then .error "OAuth token request failed"
  else
    match r.accessToken with
    | none => .error "No access_token returned by Mixcloud"
    | some t =>
      if t = "" then .error "No access_token returned by Mixcloud"
      else .ok t

/-! ## File-handle discipline of `upload` (`mixcloud_backend.py:184-220`) -/

/-- The two payload handles opened by `upload`. -/
inductive Handle where
  | audio
  | image
deriving DecidableEq, Repr

/-- The handle trace of one `upload` call, with the code's control flow:
the audio file is opened first (line 184, outside any `try`); if an
image matched, it is opened next (line 212, also outside the `try`) and
an exception there propagates immediately; the submission is wrapped in
`try/finally` closing every handle in `files` (lines 216-220).  Returns
`(opened, closed, escaped)` where `escaped` says an exception left the
call. -/
def uploadHandles (imageMatched imageOpenOk postOk : Bool) :
    List Handle × List Handle × Bool :=
  if imageMatched then
    if imageOpenOk then
      ([Handle.audio, Handle.image], [Handle.audio, Handle.image], !postOk)
    else ([Handle.audio], [], true)
  else ([Handle.audio], [Handle.audio], !postOk)

/-! ## Front-end glue (`src/backend.py`, `upload_show`) -/

/-- The date string built by `upload_show` (`backend.py:64-67`):
`f"{year}-{month.zfill(2)}-{day.zfill(2)}"` when all three components
are truthy, `None` otherwise. -/
def buildDateStr (day month year : String) : Option String :=
  if strTruthy day ∧ strTruthy month ∧ strTruthy year then
    some (year ++ "-" ++ zfill month 2 ++ "-" ++ zfill day 2)
  else none

/-! ## Properties of the matcher model -/

theorem okMatch_spec {a b : List Char} {i j : Nat} :
    okMatch a b i j = true ↔ ∃ c, a[i]? = some c ∧ b[j]? = some c := by
  unfold okMatch
  cases ha : a[i]? <;> cases hb : b[j]? <;> simp [eq_comm]

theorem chainLen_le_left (a b : List Char) (alo blo : Nat) :
    ∀ i j, chainLen a b alo blo i j ≤ i + 1 := by
  intro i
  induction i with
  | zero => intro j; simp only [chainLen]; split <;> simp
  | succ i ih =>
    intro j
    simp only [chainLen]
    split
    · split
      · omega
      · rename_i j' _hm
        split
        · have := ih j'
          omega
        · omega
    · omega

theorem chainLen_le_right (a b : List Char) (alo blo : Nat) :
    ∀ i j, chainLen a b alo blo i j ≤ j + 1 := by
  intro i
  induction i with
  | zero => intro j; simp only [chainLen]; split <;> simp
  | succ i ih =>
    intro j
    simp only [chainLen]
    split
    · split
      · omega
      · rename_i j' _hm
        split
        · have := ih j'
          omega
        · omega
    · omega

theorem chainLen_le_left_window (a b : List Char) (alo blo : Nat) :
    ∀ i j, alo ≤ i → chainLen a b alo blo i j ≤ i + 1 - alo := by
  intro i
  induction i with
  | zero =>
    intro j h
    simp only [chainLen]
    split <;> omega
  | succ i ih =>
    intro j h
    simp only [chainLen]
    split
    · split
      · omega
      · rename_i j' _hm
        split
        · rename_i hg
          have := ih j' hg.1
          omega
        · omega
    · omega

theorem chainLen_le_right_window (a b : List Char) (alo blo : Nat) :
    ∀ i j, blo ≤ j → chainLen a b alo blo i j ≤ j + 1 - blo := by
  intro i
  induction i with
  | zero =>
    intro j h
    simp only [chainLen]
    split <;> omega
  | succ i ih =>
    intro j h
    simp only [chainLen]
    split
    · split
      · omega
      · rename_i j' _hm
        split
        · rename_i hg
          have := ih j' hg.2
          omega
        · omega
    · omega

theorem chainLen_match (a b : List Char) (alo blo : Nat) :
    ∀ i j t, t < chainLen a b alo blo i j →
      okMatch a b (i - t) (j - t) = true := by
  intro i
  induction i with
  | zero =>
    intro j t ht
    simp only [chainLen] at ht
    split at ht
    · rename_i hm
      have ht0 : t = 0 := by omega
      subst ht0
      simpa using hm
    · omega
  | succ i ih =>
    intro j t ht
    simp only [chainLen] at ht
    split at ht
    · rename_i hm
      split at ht
      · have ht0 : t = 0 := by omega
        subst ht0
        simpa using hm
      · rename_i j'
        split at ht
        · cases t with
          | zero => simpa using hm
          | succ t' =>
            have hrec := ih j' t' (by omega)
            have e1 : i + 1 - (t' + 1) = i - t' := by omega
            have e2 : j' + 1 - (t' + 1) = j' - t' := by omega
            rw [e1, e2]
            exact hrec
        · have ht0 : t = 0 := by omega
          subst ht0
          simpa using hm
    · omega

theorem bbGo_mono (a b : List Char) (alo blo : Nat) :
    ∀ (l : List (Nat × Nat)) (bi bj bk : Nat),
      bk ≤ (bbGo a b alo blo l bi bj bk).2.2 := by
  intro l
  induction l with
  | nil => intro bi bj bk; simp [bbGo]
  | cons ij rest ih =>
    intro bi bj bk
    simp only [bbGo]
    split
    · rename_i hlt
      exact le_trans (le_of_lt hlt) (ih _ _ _)
    · exact ih _ _ _

theorem bbGo_ge (a b : List Char) (alo blo : Nat) :
    ∀ (l : List (Nat × Nat)) (bi bj bk : Nat) (ij : Nat × Nat), ij ∈ l →
      chainLen a b alo blo ij.1 ij.2 ≤ (bbGo a b alo blo l bi bj bk).2.2 := by
  intro l
  induction l with
  | nil => intro _ _ _ _ h; simp at h
  | cons hd rest ih =>
    intro bi bj bk ij hmem
    rcases List.mem_cons.mp hmem with heq | hmem'
    · subst heq
      simp only [bbGo]
      split
      · exact bbGo_mono a b alo blo rest _ _ _
      · rename_i hnlt
        exact le_trans (by omega) (bbGo_mono a b alo blo rest _ _ _)
    · simp only [bbGo]
      split
      · exact ih _ _ _ ij hmem'
      · exact ih _ _ _ ij hmem'

theorem bbGo_le (a b : List Char) (alo blo : Nat) :
    ∀ (l : List (Nat × Nat)) (bi bj bk c : Nat),
      (∀ ij ∈ l, chainLen a b alo blo ij.1 ij.2 ≤ c) → bk ≤ c →
      (bbGo a b alo blo l bi bj bk).2.2 ≤ c := by
  intro l
  induction l with
  | nil => intro bi bj bk c _ hbk; simpa [bbGo] using hbk
  | cons hd rest ih =>
    intro bi bj bk c hall hbk
    simp only [bbGo]
    split
    · exact ih _ _ _ _ (fun ij h => hall ij (List.mem_cons_of_mem _ h))
        (hall hd (List.mem_cons_self _ _))
    · exact ih _ _ _ _ (fun ij h => hall ij (List.mem_cons_of_mem _ h)) hbk

theorem bbGo_src (a b : List Char) (alo blo : Nat) :
    ∀ (l : List (Nat × Nat)) (bi bj bk : Nat),
      bbGo a b alo blo l bi bj bk = (bi, bj, bk) ∨
      ∃ ij ∈ l, 0 < chainLen a b alo blo ij.1 ij.2 ∧
        bbGo a b alo blo l bi bj bk =
          (ij.1 + 1 - chainLen a b alo blo ij.1 ij.2,
           ij.2 + 1 - chainLen a b alo blo ij.1 ij.2,
           chainLen a b alo blo ij.1 ij.2) := by
  intro l
  induction l with
  | nil => intro bi bj bk; left; simp [bbGo]
  | cons hd rest ih =>
    intro bi bj bk
    simp only [bbGo]
    split
    · rename_i hlt
      rcases ih (hd.1 + 1 - chainLen a b alo blo hd.1 hd.2)
          (hd.2 + 1 - chainLen a b alo blo hd.1 hd.2)
          (chainLen a b alo blo hd.1 hd.2) with h | ⟨ij, hmem, hpos, heq⟩
      · right
        exact ⟨hd, List.mem_cons_self _ _, by omega, h⟩
      · right
        exact ⟨ij, List.mem_cons_of_mem _ hmem, hpos, heq⟩
    · rcases ih bi bj bk with h | ⟨ij, hmem, hpos, heq⟩
      · left; exact h
      · right; exact ⟨ij, List.mem_cons_of_mem _ hmem, hpos, heq⟩

theorem mem_indexPairs {alo ahi blo bhi i j : Nat} :
    (i, j) ∈ indexPairs alo ahi blo bhi ↔
      (alo ≤ i ∧ i < ahi) ∧ (blo ≤ j ∧ j < bhi) := by
  unfold indexPairs
  simp only [List.mem_flatMap, List.mem_map, List.mem_range'_1, Prod.mk.injEq]
  constructor
  · rintro ⟨x, hx, y, hy, hxi, hyj⟩
    subst hxi; subst hyj
    omega
  · rintro ⟨⟨h1, h2⟩, ⟨h3, h4⟩⟩
    exact ⟨i, by omega, j, by omega, rfl, rfl⟩

theorem bestBlock_ge {a b : List Char} {alo ahi blo bhi i j : Nat}
    (h1 : alo ≤ i) (h2 : i < ahi) (h3 : blo ≤ j) (h4 : j < bhi) :
    chainLen a b alo blo i j ≤ (bestBlock a b alo ahi blo bhi).2.2 :=
  bbGo_ge a b alo blo _ alo blo 0 (i, j)
    (mem_indexPairs.mpr ⟨⟨h1, h2⟩, ⟨h3, h4⟩⟩)

theorem bestBlock_le {a b : List Char} {alo ahi blo bhi c : Nat}
    (h : ∀ i j, alo ≤ i → i < ahi → blo ≤ j → j < bhi →
      chainLen a b alo blo i j ≤ c) :
    (bestBlock a b alo ahi blo bhi).2.2 ≤ c := by
  refine bbGo_le a b alo blo _ alo blo 0 c (fun ij hmem => ?_) (Nat.zero_le c)
  have := mem_indexPairs.mp (show (ij.1, ij.2) ∈ _ from hmem)
  exact h ij.1 ij.2 this.1.1 this.1.2 this.2.1 this.2.2

theorem bestBlock_valid {a b : List Char} {alo ahi blo bhi bi bj k : Nat}
    (h : bestBlock a b alo ahi blo bhi = (bi, bj, k)) (hk : 0 < k) :
    alo ≤ bi ∧ bi + k ≤ ahi ∧ blo ≤ bj ∧ bj + k ≤ bhi ∧
      ∀ t, t < k → okMatch a b (bi + t) (bj + t) = true := by
  rcases bbGo_src a b alo blo (indexPairs alo ahi blo bhi) alo blo 0 with
    h0 | ⟨ij, hmem, hpos, heq⟩
  · rw [bestBlock] at h
    rw [h0] at h
    injection h with h1 h'
    injection h' with h2 h3
    omega
  · rw [bestBlock] at h
    rw [heq] at h
    injection h with h1 h'
    injection h' with h2 h3
    have hmem' := mem_indexPairs.mp (show (ij.1, ij.2) ∈ _ from hmem)
    have hwl := chainLen_le_left_window a b alo blo ij.1 ij.2 hmem'.1.1
    have hwr := chainLen_le_right_window a b alo blo ij.1 ij.2 hmem'.2.1
    have hl := chainLen_le_left a b alo blo ij.1 ij.2
    have hr := chainLen_le_right a b alo blo ij.1 ij.2
    refine ⟨by omega, by omega, by omega, by omega, fun t ht => ?_⟩
    have hm := chainLen_match a b alo blo ij.1 ij.2
      (chainLen a b alo blo ij.1 ij.2 - 1 - t) (by omega)
    have e1 : ij.1 - (chainLen a b alo blo ij.1 ij.2 - 1 - t) = bi + t := by
      omega
    have e2 : ij.2 - (chainLen a b alo blo ij.1 ij.2 - 1 - t) = bj + t := by
      omega
    rw [e1, e2] at hm
    exact hm

theorem matchTotal_le (a b : List Char) :
    ∀ fuel alo ahi blo bhi,
      matchTotal a b fuel alo ahi blo bhi ≤ ahi - alo ∧
      matchTotal a b fuel alo ahi blo bhi ≤ bhi - blo := by
  intro fuel
  induction fuel with
  | zero => intro alo ahi blo bhi; simp [matchTotal]
  | succ fuel ih =>
    intro alo ahi blo bhi
    rcases hbb : bestBlock a b alo ahi blo bhi with ⟨bi, bj, k⟩
    simp only [matchTotal, hbb]
    by_cases hk : k = 0
    · simp [hk]
    · simp only [hk, if_false]
      have hval := bestBlock_valid hbb (Nat.pos_of_ne_zero hk)
      have ihl := ih alo bi blo bj
      have ihr := ih (bi + k) ahi (bj + k) bhi
      omega

theorem chainLen_self (a : List Char) :
    ∀ i, i < a.length → chainLen a a 0 0 i i = i + 1 := by
  intro i
  induction i with
  | zero =>
    intro h
    have hm : okMatch a a 0 0 = true :=
      okMatch_spec.mpr ⟨a.get ⟨0, h⟩, by simp [List.getElem?_eq_getElem h], by
        simp [List.getElem?_eq_getElem h]⟩
    simp [chainLen, hm]
  | succ i ih =>
    intro h
    have hm : okMatch a a (i + 1) (i + 1) = true :=
      okMatch_spec.mpr ⟨a.get ⟨i + 1, h⟩, by simp [List.getElem?_eq_getElem h],
        by simp [List.getElem?_eq_getElem h]⟩
    simp only [chainLen, hm, if_true]
    rw [if_pos ⟨Nat.zero_le i, Nat.zero_le i⟩, ih (by omega)]

theorem bestBlock_self {a : List Char} {n : Nat} (hn : a.length = n) :
    bestBlock a a 0 n 0 n = (0, 0, n) := by
  rcases hbb : bestBlock a a 0 n 0 n with ⟨bi, bj, k⟩
  by_cases hn0 : n = 0
  · subst hn0
    have : indexPairs 0 0 0 0 = [] := by simp [indexPairs]
    rw [bestBlock, this] at hbb
    simpa [bbGo] using hbb.symm
  · have hk_ge : n ≤ k := by
      have hg : chainLen a a 0 0 (n - 1) (n - 1) ≤ k := by
        simpa [hbb] using
          @bestBlock_ge a a 0 n 0 n (n - 1) (n - 1)
            (by omega) (by omega) (by omega) (by omega)
      rw [chainLen_self a (n - 1) (by omega)] at hg
      omega
    have hk_le : k ≤ n := by
      have hle : (bestBlock a a 0 n 0 n).2.2 ≤ n :=
        @bestBlock_le a a 0 n 0 n n (fun i j _ h2 _ _ => by
          have := chainLen_le_left a a 0 0 i j
          omega)
      simpa [hbb] using hle
    have hkn : k = n := by omega
    rcases bbGo_src a a 0 0 (indexPairs 0 n 0 n) 0 0 0 with h0 | ⟨ij, hmem, hpos, heq⟩
    · rw [bestBlock] at hbb
      rw [h0] at hbb
      injection hbb with e1 e'
      injection e' with e2 e3
      exact absurd (by omega : n = 0) hn0
    · rw [bestBlock] at hbb
      rw [heq] at hbb
      injection hbb with e1 e'
      injection e' with e2 e3
      have hmem' := mem_indexPairs.mp (show (ij.1, ij.2) ∈ _ from hmem)
      have hbl := chainLen_le_left a a 0 0 ij.1 ij.2
      have hbr := chainLen_le_right a a 0 0 ij.1 ij.2
      have hb1 : bi = 0 := by omega
      have hb2 : bj = 0 := by omega
      rw [hb1, hb2, hkn]

theorem matchTotal_self {a : List Char} {n fuel : Nat} (hn : a.length = n)
    (hfuel : 0 < fuel) : matchTotal a a fuel 0 n 0 n = n := by
  rcases fuel with _ | fuel
  · omega
  · simp only [matchTotal, bestBlock_self hn, Nat.zero_add]
    by_cases hn0 : n = 0
    · simp [hn0]
    · simp only [hn0, if_false]
      have h1 := matchTotal_le a a fuel 0 0 0 0
      have h2 := matchTotal_le a a fuel n n n n
      omega

theorem matchTotalFull_self (a : List Char) : matchTotalFull a a = a.length :=
  matchTotal_self rfl (by omega)

theorem matchTotal_eq_full (a b : List Char) :
    ∀ fuel alo ahi blo bhi,
      matchTotal a b fuel alo ahi blo bhi = ahi - alo →
      matchTotal a b fuel alo ahi blo bhi = bhi - blo →
      ∀ t, t < ahi - alo → okMatch a b (alo + t) (blo + t) = true := by
  intro fuel
  induction fuel with
  | zero =>
    intro alo ahi blo bhi hL _ t ht
    simp only [matchTotal] at hL
    omega
  | succ fuel ih =>
    intro alo ahi blo bhi hL hR t ht
    rcases hbb : bestBlock a b alo ahi blo bhi with ⟨bi, bj, k⟩
    simp only [matchTotal, hbb] at hL hR
    by_cases hk : k = 0
    · rw [hk] at hL
      simp at hL
      omega
    · simp only [hk, if_false] at hL hR
      have hval := bestBlock_valid hbb (Nat.pos_of_ne_zero hk)
      obtain ⟨hv1, hv2, hv3, hv4, hmid⟩ := hval
      have ihlb := matchTotal_le a b fuel alo bi blo bj
      have ihrb := matchTotal_le a b fuel (bi + k) ahi (bj + k) bhi
      have eL1 : matchTotal a b fuel alo bi blo bj = bi - alo := by omega
      have eL2 : matchTotal a b fuel alo bi blo bj = bj - blo := by omega
      have eR1 : matchTotal a b fuel (bi + k) ahi (bj + k) bhi
          = ahi - (bi + k) := by omega
      have eR2 : matchTotal a b fuel (bi + k) ahi (bj + k) bhi
          = bhi - (bj + k) := by omega
      by_cases c1 : t < bi - alo
      · exact ih alo bi blo bj eL1 eL2 t c1
      · by_cases c2 : t < bi - alo + k
        · have e1 : alo + t = bi + (t - (bi - alo)) := by omega
          have e2 : blo + t = bj + (t - (bi - alo)) := by omega
          rw [e1, e2]
          exact hmid _ (by omega)
        · have e1 : alo + t = (bi + k) + (t - (bi - alo) - k) := by omega
          have e2 : blo + t = (bj + k) + (t - (bi - alo) - k) := by omega
          rw [e1, e2]
          exact ih (bi + k) ahi (bj + k) bhi eR1 eR2 _ (by omega)

theorem matchTotalFull_le (a b : List Char) :
    matchTotalFull a b ≤ a.length ∧ matchTotalFull a b ≤ b.length := by
  have := matchTotal_le a b (a.length + b.length + 1) 0 a.length 0 b.length
  simpa [matchTotalFull] using this

theorem eq_of_matchTotalFull_eq {a b : List Char}
    (ha : matchTotalFull a b = a.length) (hb : matchTotalFull a b = b.length) :
    a = b := by
  have hmatch := matchTotal_eq_full a b (a.length + b.length + 1)
    0 a.length 0 b.length (by simpa [matchTotalFull] using ha)
    (by simpa [matchTotalFull] using hb)
  refine List.ext_getElem? fun i => ?_
  by_cases hi : i < a.length
  · have := hmatch i (by omega)
    simp only [Nat.zero_add] at this
    rcases okMatch_spec.mp this with ⟨c, hc1, hc2⟩
    rw [hc1, hc2]
  · have hbl : b.length = a.length := by omega
    rw [List.getElem?_eq_none (by omega), List.getElem?_eq_none (by omega)]

/-! ## Properties of the ratio and of `get_close_matches` -/

theorem ratioDen_pos (a b : List Char) : 0 < ratioDen a b := by
  unfold ratioDen
  split <;> omega

theorem ratioNum_le_ratioDen (a b : List Char) : ratioNum a b ≤ ratioDen a b := by
  unfold ratioNum ratioDen
  split
  · omega
  · have := matchTotalFull_le a b
    omega

theorem ratioNum_self (a : List Char) : ratioNum a a = ratioDen a a := by
  unfold ratioNum ratioDen
  split
  · rfl
  · rw [matchTotalFull_self]
    omega

theorem eq_of_ratioNum_eq_ratioDen {a b : List Char}
    (h : ratioNum a b = ratioDen a b) : a = b := by
  unfold ratioNum ratioDen at h
  by_cases h0 : a.length + b.length = 0
  · have ha : a = [] := List.length_eq_zero.mp (by omega)
    have hb : b = [] := List.length_eq_zero.mp (by omega)
    rw [ha, hb]
  · rw [if_neg h0, if_neg h0] at h
    have := matchTotalFull_le a b
    exact eq_of_matchTotalFull_eq (by omega) (by omega)

theorem cutoffOK_self (a : List Char) : cutoffOK a a = true := by
  unfold cutoffOK
  rw [ratioNum_self]
  have := ratioDen_pos a a
  simpa using by omega

theorem crossTrans {n1 d1 n2 d2 n3 d3 : Nat} (h1 : n1 * d2 ≤ n2 * d1)
    (h2 : n2 * d3 ≤ n3 * d2) (hd2 : 0 < d2) : n1 * d3 ≤ n3 * d1 := by
  have hmain : n1 * d3 * d2 ≤ n3 * d1 * d2 := by
    calc n1 * d3 * d2 = n1 * d2 * d3 := by ring
    _ ≤ n2 * d1 * d3 := Nat.mul_le_mul_right d3 h1
    _ = n2 * d3 * d1 := by ring
    _ ≤ n3 * d2 * d1 := Nat.mul_le_mul_right d1 h2
    _ = n3 * d1 * d2 := by ring
  exact Nat.le_of_mul_le_mul_right hmain hd2

theorem pickBest_mem (w : List Char) :
    ∀ (ps : List (List Char)) (p : List Char), pickBest w p ps ∈ p :: ps := by
  intro ps
  induction ps with
  | nil => intro p; simp [pickBest]
  | cons x ps ih =>
    intro p
    have hstep : pickBest w p (x :: ps)
        = pickBest w (if scoreGt w x p then x else p) ps := rfl
    rw [hstep]
    rcases List.mem_cons.mp (ih (if scoreGt w x p then x else p)) with h | h
    · rw [h]
      split
      · exact List.mem_cons_of_mem _ (List.mem_cons_self _ _)
      · exact List.mem_cons_self _ _
    · exact List.mem_cons_of_mem _ (List.mem_cons_of_mem _ h)

theorem pickBest_step_ge (w x p : List Char) :
    (ratioNum p w * ratioDen (if scoreGt w x p then x else p) w ≤
      ratioNum (if scoreGt w x p then x else p) w * ratioDen p w) ∧
    (ratioNum x w * ratioDen (if scoreGt w x p then x else p) w ≤
      ratioNum (if scoreGt w x p then x else p) w * ratioDen x w) := by
  split
  · rename_i hgt
    unfold scoreGt at hgt
    rcases Bool.or_eq_true_iff.mp hgt with hlt | heq
    · unfold ratioLtB at hlt
      have := of_decide_eq_true hlt
      omega
    · have heq' := of_decide_eq_true (Bool.and_eq_true_iff.mp heq).1
      unfold ratioEqB at heq'
      constructor
      · omega
      · omega
  · rename_i hngt
    unfold scoreGt at hngt
    have hnlt : ratioLtB w p x = false := by
      cases hp : ratioLtB w p x
      · rfl
      · rw [hp] at hngt; simp at hngt
    unfold ratioLtB at hnlt
    have := of_decide_eq_false hnlt
    omega

theorem pickBest_max (w : List Char) :
    ∀ (ps : List (List Char)) (p : List Char), ∀ x ∈ p :: ps,
      ratioNum x w * ratioDen (pickBest w p ps) w ≤
        ratioNum (pickBest w p ps) w * ratioDen x w := by
  intro ps
  induction ps with
  | nil =>
    intro p x hx
    rcases List.mem_cons.mp hx with h | h
    · subst h
      simp [pickBest]
    · simp at h
  | cons y ps ih =>
    intro p x hx
    have hstep : pickBest w p (y :: ps)
        = pickBest w (if scoreGt w y p then y else p) ps := rfl
    rw [hstep]
    have hhead := ih (if scoreGt w y p then y else p) _
      (List.mem_cons_self _ _)
    have hden : 0 < ratioDen (if scoreGt w y p then y else p) w :=
      ratioDen_pos _ _
    rcases List.mem_cons.mp hx with h | h
    · subst h
      exact crossTrans (pickBest_step_ge w y x).1 hhead hden
    · rcases List.mem_cons.mp h with h' | h'
      · subst h'
        exact crossTrans (pickBest_step_ge w x p).2 hhead hden
      · exact ih _ x (List.mem_cons_of_mem _ h')

/-- No possibility clears the cutoff: `get_close_matches` is empty. -/
theorem closeMatches1_none {w : List Char} {xs : List (List Char)}
    (h : ∀ x ∈ xs, cutoffOK x w = false) : closeMatches1 w xs = none := by
  unfold closeMatches1
  have hf : xs.filter (fun x => cutoffOK x w) = [] :=
    List.filter_eq_nil_iff.mpr (fun a ha => by simp [h a ha])
  rw [hf]

theorem closeMatches1_mem {w r : List Char} {xs : List (List Char)}
    (h : closeMatches1 w xs = some r) : r ∈ xs ∧ cutoffOK r w = true := by
  unfold closeMatches1 at h
  rcases hf : xs.filter (fun x => cutoffOK x w) with _ | ⟨p, ps⟩
  · rw [hf] at h; simp at h
  · rw [hf] at h
    injection h with h
    have hmem : r ∈ xs.filter (fun x => cutoffOK x w) := by
      rw [hf, ← h]
      exact pickBest_mem w ps p
    exact List.mem_filter.mp hmem

theorem closeMatches1_best {w r : List Char} {xs : List (List Char)}
    (h : closeMatches1 w xs = some r) :
    ∀ x ∈ xs, cutoffOK x w = true →
      ratioNum x w * ratioDen r w ≤ ratioNum r w * ratioDen x w := by
  unfold closeMatches1 at h
  rcases hf : xs.filter (fun x => cutoffOK x w) with _ | ⟨p, ps⟩
  · rw [hf] at h; simp at h
  · rw [hf] at h
    injection h with h
    intro x hx hcut
    have hxf : x ∈ p :: ps := by
      rw [← hf]
      exact List.mem_filter.mpr ⟨hx, hcut⟩
    rw [← h]
    exact pickBest_max w ps p x hxf

/-- The word itself among the possibilities: `get_close_matches` returns
it (its ratio is `1`, the maximum, and equal-ratio possibilities are the
word itself, so the Python `max` tie-break never leaves it). -/
theorem closeMatches1_self {w : List Char} {xs : List (List Char)}
    (hw : w ∈ xs) : closeMatches1 w xs = some w := by
  rcases hr : closeMatches1 w xs with _ | r
  · have hmemf : w ∈ xs.filter (fun x => cutoffOK x w) :=
      List.mem_filter.mpr ⟨hw, cutoffOK_self w⟩
    unfold closeMatches1 at hr
    rcases hf : xs.filter (fun x => cutoffOK x w) with _ | ⟨p, ps⟩
    · rw [hf] at hmemf; simp at hmemf
    · rw [hf] at hr; simp at hr
  · have hmax := closeMatches1_best hr w hw (cutoffOK_self w)
    have hself := ratioNum_self w
    have hle := ratioNum_le_ratioDen r w
    have hdpos : 0 < ratioDen w w := ratioDen_pos w w
    rw [hself] at hmax
    have hcancel : ratioDen r w ≤ ratioNum r w := by
      have h1 : ratioDen r w * ratioDen w w ≤ ratioNum r w * ratioDen w w := by
        calc ratioDen r w * ratioDen w w = ratioDen w w * ratioDen r w := by ring
        _ ≤ ratioNum r w * ratioDen w w := hmax
      exact Nat.le_of_mul_le_mul_right h1 hdpos
    have hrw : r = w := eq_of_ratioNum_eq_ratioDen (by omega)
    rw [hrw]

/-! ## Properties of the show-name resolution -/

theorem find_best_match_name_mem {metadata : Catalog} {query r : String}
    (h : find_best_match_name metadata query = some r) :
    r ∈ metadata.map Prod.fst := by
  unfold find_best_match_name at h
  by_cases he : (metadata.map Prod.fst).isEmpty
  · rw [if_pos he] at h
    cases h
  · rw [if_neg he] at h
    rcases hcm : closeMatches1 (pyLowerD query)
        ((metadata.map Prod.fst).map pyLowerD) with _ | m
    · rw [hcm] at h
      cases h
    · rw [hcm] at h
      exact List.mem_of_find?_eq_some h

theorem find_best_match_name_below_cutoff {metadata : Catalog} {query : String}
    (h : ∀ name ∈ metadata.map Prod.fst,
      cutoffOK (pyLowerD name) (pyLowerD query) = false) :
    find_best_match_name metadata query = none := by
  unfold find_best_match_name
  by_cases he : (metadata.map Prod.fst).isEmpty
  · rw [if_pos he]
  · rw [if_neg he]
    have hnone : closeMatches1 (pyLowerD query)
        ((metadata.map Prod.fst).map pyLowerD) = none := by
      refine closeMatches1_none (fun x hx => ?_)
      rcases List.mem_map.mp hx with ⟨name, hname, rfl⟩
      exact h name hname
    rw [hnone]

theorem find_best_match_name_score {metadata : Catalog} {query r : String}
    (h : find_best_match_name metadata query = some r) :
    cutoffOK (pyLowerD r) (pyLowerD query) = true ∧
    ∀ name ∈ metadata.map Prod.fst,
      cutoffOK (pyLowerD name) (pyLowerD query) = true →
        ratioNum (pyLowerD name) (pyLowerD query)
            * ratioDen (pyLowerD r) (pyLowerD query) ≤
          ratioNum (pyLowerD r) (pyLowerD query)
            * ratioDen (pyLowerD name) (pyLowerD query) := by
  unfold find_best_match_name at h
  by_cases he : (metadata.map Prod.fst).isEmpty
  · rw [if_pos he] at h
    cases h
  · rw [if_neg he] at h
    rcases hcm : closeMatches1 (pyLowerD query)
        ((metadata.map Prod.fst).map pyLowerD) with _ | m
    · rw [hcm] at h
      cases h
    · rw [hcm] at h
      have hrm : pyLowerD r = m := by simpa using List.find?_some h
      have hmmem := closeMatches1_mem hcm
      constructor
      · rw [hrm]
        exact hmmem.2
      · intro name hname hcut
        rw [hrm]
        exact closeMatches1_best hcm (pyLowerD name)
          (List.mem_map_of_mem pyLowerD hname) hcut

theorem find?_exact_of_collide :
    ∀ (metadata : Catalog) (w : List Char) (pr : String × ShowRecord),
      metadata.find? (fun p => decide (pyLowerD p.1 = w)) = some pr →
      metadata.find? (fun p => decide (p.1 = pr.1)) = some pr := by
  intro metadata
  induction metadata with
  | nil => intro w pr h; simp at h
  | cons q md ih =>
    intro w pr h
    by_cases hq : pyLowerD q.1 = w
    · rw [List.find?_cons_of_pos
        (p := fun p : String × ShowRecord => decide (pyLowerD p.1 = w)) _
        (by simpa using hq)] at h
      injection h with h
      subst h
      rw [List.find?_cons_of_pos
        (p := fun p : String × ShowRecord => decide (p.1 = q.1)) _ (by simp)]
    · rw [List.find?_cons_of_neg
        (p := fun p : String × ShowRecord => decide (pyLowerD p.1 = w)) _
        (by simpa using hq)] at h
      have hprw : pyLowerD pr.1 = w := by simpa using List.find?_some h
      have hne : ¬((fun p : String × ShowRecord => decide (p.1 = pr.1)) q
          = true) := by
        simp only [decide_eq_true_eq]
        intro hqq
        rw [hqq, hprw] at hq
        exact hq rfl
      rw [List.find?_cons_of_neg
        (p := fun p : String × ShowRecord => decide (p.1 = pr.1)) _ hne]
      exact ih w pr h

/-- Resolving a query whose lower-casing collides with some catalog key:
the result is the first colliding key and its own record. -/
theorem find_best_match_meta_collide {metadata : Catalog} {query : String}
    {pr : String × ShowRecord}
    (h : metadata.find? (fun p => decide (pyLowerD p.1 = pyLowerD query))
      = some pr) :
    find_best_match_meta metadata query = (pr.2, pr.1) := by
  have hpr_mem := List.mem_of_find?_eq_some h
  have hpr_eq : pyLowerD pr.1 = pyLowerD query := by
    simpa using List.find?_some h
  have hne : ¬((metadata.map Prod.fst).isEmpty = true) := by
    rcases metadata with _ | ⟨q, md⟩
    · simp at h
    · simp
  have hw : pyLowerD query ∈ (metadata.map Prod.fst).map pyLowerD := by
    rw [← hpr_eq]
    exact List.mem_map_of_mem pyLowerD (List.mem_map_of_mem Prod.fst hpr_mem)
  have hcm := closeMatches1_self hw
  have hfind : (metadata.map Prod.fst).find?
      (fun name => decide (pyLowerD name = pyLowerD query)) = some pr.1 := by
    rw [List.find?_map]
    have hcomp : ((fun name => decide (pyLowerD name = pyLowerD query))
        ∘ Prod.fst)
        = (fun p : String × ShowRecord =>
            decide (pyLowerD p.1 = pyLowerD query)) := rfl
    rw [hcomp, h]
    rfl
  have hname : find_best_match_name metadata query = some pr.1 := by
    unfold find_best_match_name
    rw [if_neg hne, hcm]
    exact hfind
  have hlook : metadata.find? (fun p => decide (p.1 = pr.1)) = some pr :=
    find?_exact_of_collide metadata (pyLowerD query) pr h
  simp only [find_best_match_meta, hname, lookupRecord, hlook]

/-! ## Helper lemmas on strings -/

theorem intercalate_single (sep s : String) :
    String.intercalate sep [s] = s := by
  simp [String.intercalate, String.intercalate.go]

theorem intercalate_pair (sep s t : String) :
    String.intercalate sep [s, t] = s ++ sep ++ t := by
  simp [String.intercalate, String.intercalate.go]

theorem length_pos_of_ne_empty {s : String} (h : s ≠ "") : 0 < s.length := by
  cases s with
  | mk data =>
    cases data with
    | nil => exact absurd rfl h
    | cons c cs => simp [String.length]

theorem append_ne_empty_left {s : String} (t : String) (h : s ≠ "") :
    s ++ t ≠ "" := by
  intro he
  have hlen := congrArg String.length he
  rw [String.length_append, show String.length "" = 0 from rfl] at hlen
  have hpos := length_pos_of_ne_empty h
  omega

theorem tracklistLine_ne_empty (mn d : String) : tracklistLine mn d ≠ "" := by
  unfold tracklistLine
  rw [show "Tracklist: http://dublab.cat/shows/"
      ++ (⟨(pyLowerD mn).map (fun c => if c = ' ' then '-' else c)⟩ : String)
      ++ "/" ++ d
      = "Tracklist: http://dublab.cat/shows/"
        ++ ((⟨(pyLowerD mn).map (fun c => if c = ' ' then '-' else c)⟩ : String)
          ++ "/" ++ d) from by
    simp [String.append_assoc]]
  exact append_ne_empty_left _ (by decide)

/-! ## The claims -/

set_option maxRecDepth 100000 in
/-- C1: with the catalog `{"Late Night Sessions": {bio: "Deep cuts.",
host: "DJ X", tags: ["house","deep"]}}`, uploading `latenight.mp3` with
title `"Late Night Session"`, empty host, empty explicit tag list and
date components `(01, 02, 2024)` (so the front end builds the date
string `2024-02-01`) fuzzy-resolves to `"Late Night Sessions"`, picks
final host `"DJ X"` and final tags `["house", "deep"]`, builds the
description `"Deep cuts."` + blank line + tracklist URL, and sends the
display title `"Late Night Sessions 2024-02-01 w/ DJ X"`. -/
theorem C1_end_to_end :
    buildRequest
      [("Late Night Sessions", ⟨"Deep cuts.", "DJ X", ["house", "deep"]⟩)]
      ⟨"latenight.mp3", some "Late Night Session", some "", some [],
        buildDateStr "01" "02" "2024"⟩ =
    ⟨"Late Night Sessions", "DJ X", ["house", "deep"],
      "Deep cuts.\n\nTracklist: http://dublab.cat/shows/late-night-sessions/2024-02-01",
      "Late Night Sessions 2024-02-01 w/ DJ X", ["house", "deep"]⟩ := by
  decide

/-- C2, counterexample: with an absent (`None`) date, the display title
interpolates the literal text `"None"`, not an empty segment as the
claim states: for `upload("a.mp3")` with no title, host, tags or date,
the resolved name is `"a"` and the final host `""`, so the claim
predicts the title `"a  w/ "`, but the code sends `"a None w/ "`. -/
theorem C2_counterexample :
    (buildRequest [] ⟨"a.mp3", none, none, none, none⟩).matchedName = "a" ∧
    (buildRequest [] ⟨"a.mp3", none, none, none, none⟩).finalHost = "" ∧
    (buildRequest [] ⟨"a.mp3", none, none, none, none⟩).displayTitle
      = "a None w/ " ∧
    (buildRequest [] ⟨"a.mp3", none, none, none, none⟩).displayTitle
      ≠ "a  w/ " := by
  decide

/-- C2, amended: the display title is always the resolved show name, a
space, the f-string interpolation of the date argument, `" w/ "`, and
the final host.  A date passed as an empty string and an absent or empty
host yield empty segments, but a date passed as `None` is interpolated
as the literal text `"None"`. -/
theorem C2_display_title (metadata : Catalog) (c : UploadCall) :
    (buildRequest metadata c).displayTitle =
      (buildRequest metadata c).matchedName ++ " " ++ pyFStrOpt c.dateStr
        ++ " w/ " ++ (buildRequest metadata c).finalHost ∧
    (∀ d, c.dateStr = some d →
      (buildRequest metadata c).displayTitle =
        (buildRequest metadata c).matchedName ++ " " ++ d ++ " w/ "
          ++ (buildRequest metadata c).finalHost) ∧
    (c.dateStr = none →
      (buildRequest metadata c).displayTitle =
        (buildRequest metadata c).matchedName ++ " " ++ "None" ++ " w/ "
          ++ (buildRequest metadata c).finalHost) := by
  refine ⟨rfl, fun d hd => ?_, fun hd => ?_⟩
  · rw [show (buildRequest metadata c).displayTitle =
      (buildRequest metadata c).matchedName ++ " " ++ pyFStrOpt c.dateStr
        ++ " w/ " ++ (buildRequest metadata c).finalHost from rfl, hd]
    rfl
  · rw [show (buildRequest metadata c).displayTitle =
      (buildRequest metadata c).matchedName ++ " " ++ pyFStrOpt c.dateStr
        ++ " w/ " ++ (buildRequest metadata c).finalHost from rfl, hd]
    rfl

set_option maxRecDepth 10000 in
/-- C2, witness for the amended theorem at a concrete call. -/
theorem C2_display_title_witness :
    (buildRequest [] ⟨"b.mp3", none, some "H", none, some "2024-02-01"⟩).displayTitle
      = "b 2024-02-01 w/ H" := by
  have h := (C2_display_title []
    ⟨"b.mp3", none, some "H", none, some "2024-02-01"⟩).2.1 "2024-02-01" rfl
  rw [h]
  decide

/-- C4: a 401 or 403 on the submission deletes the token file, clears
the in-memory token and returns `False` without consuming any further
response (no retry of the same upload); on the resulting state the
durable store reports no token, and the next `get_token` falls through
to the OAuth flow and persists its token. -/
theorem C4_auth_failure (st : AuthState) (status : Nat) (rest : List Nat)
    (h : status = 401 ∨ status = 403) :
    uploadSubmit st (status :: rest) = some (false, ⟨none, none⟩, rest) ∧
    storeGet ⟨none, none⟩ = none ∧
    (∀ flowTok, get_token ⟨none, none⟩ flowTok
      = (flowTok, ⟨some flowTok, some flowTok⟩)) := by
  rcases h with h | h <;> subst h <;>
    exact ⟨by simp [uploadSubmit], rfl, fun flowTok => rfl⟩

/-- C4, witness: a concrete 401 with one pending response left over. -/
theorem C4_auth_failure_witness :
    uploadSubmit ⟨some "tok", some "tok"⟩ [401, 200]
      = some (false, ⟨none, none⟩, [200]) ∧
    storeGet ⟨none, none⟩ = none ∧
    get_token ⟨none, none⟩ "fresh" = ("fresh", ⟨some "fresh", some "fresh"⟩) := by
  have h := C4_auth_failure ⟨some "tok", some "tok"⟩ 401 [200] (Or.inl rfl)
  exact ⟨h.1, h.2.1, h.2.2 "fresh"⟩

/-- C6: the outbound `tags-{i}-tag` fields are always the final tag list
truncated to five — at most five fields, exactly five whenever the final
list (explicit or catalog-derived) is longer, and an explicit non-empty
tag list is itself truncated at request-build time. -/
theorem C6_tag_truncation (metadata : Catalog) (c : UploadCall) :
    (buildRequest metadata c).tagFields
      = (buildRequest metadata c).finalTags.take 5 ∧
    (buildRequest metadata c).tagFields.length
      = min 5 (buildRequest metadata c).finalTags.length ∧
    (buildRequest metadata c).tagFields.length ≤ 5 ∧
    (∀ l, c.tags = some l → l ≠ [] →
      (buildRequest metadata c).tagFields = l.take 5) := by
  refine ⟨rfl, ?_, ?_, fun l hl hne => ?_⟩
  · rw [show (buildRequest metadata c).tagFields
      = (buildRequest metadata c).finalTags.take 5 from rfl]
    exact List.length_take 5 _
  · rw [show (buildRequest metadata c).tagFields
      = (buildRequest metadata c).finalTags.take 5 from rfl]
    have := List.length_take 5 (buildRequest metadata c).finalTags
    omega
  · have hfin : (buildRequest metadata c).finalTags = l := by
      show pyOrList c.tags _ = l
      rw [hl]
      simp [pyOrList, hne]
    rw [show (buildRequest metadata c).tagFields
      = (buildRequest metadata c).finalTags.take 5 from rfl, hfin]

set_option maxRecDepth 10000 in
/-- C6, witness: seven explicit tags are cut to exactly five. -/
theorem C6_tag_truncation_witness :
    (buildRequest []
      ⟨"x.mp3", some "X", none,
        some ["t1", "t2", "t3", "t4", "t5", "t6", "t7"], none⟩).tagFields
      = ["t1", "t2", "t3", "t4", "t5"] := by
  have h := (C6_tag_truncation []
    ⟨"x.mp3", some "X", none,
      some ["t1", "t2", "t3", "t4", "t5", "t6", "t7"], none⟩).2.2.2
    ["t1", "t2", "t3", "t4", "t5", "t6", "t7"] rfl (by decide)
  rw [h]
  decide

/-- C8, counterexample: a 200 response whose `access_token` field is
present but empty makes the exchange raise, although the claim's
condition (non-200 or missing field) does not hold. -/
theorem C8_counterexample :
    oauthExchange ⟨200, some ""⟩
      = Except.error "No access_token returned by Mixcloud" ∧
    ¬((200 : Nat) ≠ 200 ∨ (some "" : Option String) = none) := by
  exact ⟨rfl, by simp⟩

/-- C8, amended: the code-for-token exchange raises exactly when the
token endpoint's response is non-200 or its `access_token` field is
missing or falsy (empty); otherwise the flow returns the token. -/
theorem C8_exchange (r : TokenResponse) :
    ((∃ e, oauthExchange r = Except.error e) ↔
      (r.status ≠ 200 ∨ r.accessToken = none ∨ r.accessToken = some "")) ∧
    (∀ t, oauthExchange r = Except.ok t ↔
      (r.status = 200 ∧ r.accessToken = some t ∧ t ≠ "")) := by
  rcases r with ⟨status, tok⟩
  unfold oauthExchange
  by_cases hs : status = 200
  · subst hs
    rcases tok with _ | t
    · simp
    · by_cases ht : t = ""
      · subst ht
        simp
      · simp [ht]
  · simp [hs]

/-- C9, counterexample: an exception while opening the matched image
file (after the audio handle is open, before the `try`) leaves the call
with the audio handle open and nothing closed — an exit path on which
not every opened handle is closed. -/
theorem C9_counterexample :
    uploadHandles true false true = ([Handle.audio], [], true) ∧
    ¬(∀ h ∈ (uploadHandles true false true).1,
        h ∈ (uploadHandles true false true).2.1) := by
  constructor
  · rfl
  · intro hall
    have := hall Handle.audio (by simp [uploadHandles])
    simp [uploadHandles] at this

/-- C9, amended: on every exit path that reaches the submission attempt
— that is, whenever opening the image (when one matched) does not itself
raise — all opened payload handles are closed, including the path where
the submission raises (the exception then escapes after the `finally`
closes the handles); the unprotected window is only the image open. -/
theorem C9_handles (imageMatched imageOpenOk postOk : Bool)
    (h : imageMatched = true → imageOpenOk = true) :
    (uploadHandles imageMatched imageOpenOk postOk).2.1
      = (uploadHandles imageMatched imageOpenOk postOk).1 ∧
    (uploadHandles imageMatched imageOpenOk postOk).2.2 = !postOk := by
  cases imageMatched <;> cases imageOpenOk <;> cases postOk <;>
    simp_all [uploadHandles]

/-- C9, witness: image matched and opened, submission raises — both
handles are still closed and the exception escapes. -/
theorem C9_handles_witness :
    (uploadHandles true true false).2.1 = (uploadHandles true true false).1 ∧
    (uploadHandles true true false).2.2 = true :=
  C9_handles true true false (fun _ => rfl)

/-- C10: an explicitly supplied empty host or empty tag list is
indistinguishable from an absent one — the built request is identical —
and never overrides the catalog's values: with empty explicit host and
tags, the final host is the catalog host and the final tags are the
catalog tags truncated to five. -/
theorem C10_empty_overrides (metadata : Catalog) (c : UploadCall) :
    buildRequest metadata { c with host := some "" }
      = buildRequest metadata { c with host := none } ∧
    buildRequest metadata { c with tags := some [] }
      = buildRequest metadata { c with tags := none } ∧
    (∀ rec mn,
      find_best_match_meta metadata (resolvedShowName c.mp3Path c.title)
        = (rec, mn) →
      (buildRequest metadata { c with host := some "", tags := some [] }).finalHost
        = pyStrip rec.host ∧
      (buildRequest metadata { c with host := some "", tags := some [] }).finalTags
        = rec.tags.take 5) := by
  refine ⟨rfl, rfl, fun rec mn h => ⟨?_, ?_⟩⟩
  · show pyOrStr (some "")
      (pyStrip (find_best_match_meta metadata
        (resolvedShowName c.mp3Path c.title)).1.host) = _
    rw [h]
    rfl
  · show pyOrList (some [])
      ((find_best_match_meta metadata
        (resolvedShowName c.mp3Path c.title)).1.tags.take 5) = _
    rw [h]
    rfl

set_option maxRecDepth 10000 in
/-- C10, witness: empty explicit host and tags fall back to the catalog
host and (truncated) catalog tags. -/
theorem C10_empty_overrides_witness :
    (buildRequest [("Solo Show", ⟨"b", "Host A", ["x", "y"]⟩)]
      ⟨"solo.mp3", some "Solo Show", some "", some [], none⟩).finalHost
      = "Host A" ∧
    (buildRequest [("Solo Show", ⟨"b", "Host A", ["x", "y"]⟩)]
      ⟨"solo.mp3", some "Solo Show", some "", some [], none⟩).finalTags
      = ["x", "y"] := by
  have h := (C10_empty_overrides [("Solo Show", ⟨"b", "Host A", ["x", "y"]⟩)]
    ⟨"solo.mp3", some "Solo Show", some "", some [], none⟩).2.2
    ⟨"b", "Host A", ["x", "y"]⟩ "Solo Show" (by decide)
  exact ⟨h.1.trans (by decide), h.2.trans (by decide)⟩

set_option maxRecDepth 100000 in
/-- C3, counterexample: when two catalog keys collide case-insensitively
(`"ABC"` and `"abc"`), resolving the exact name `"abc"` returns the
record of the *first* colliding key `"ABC"`, not the record of `"abc"`
itself, refuting "resolving that exact name returns that show's own
record". -/
theorem C3_counterexample :
    find_best_match_meta
      [("ABC", ⟨"bio one", "h1", []⟩), ("abc", ⟨"bio two", "h2", []⟩)] "abc"
      = (⟨"bio one", "h1", []⟩, "ABC") ∧
    ((⟨"bio one", "h1", []⟩ : ShowRecord), ("ABC" : String))
      ≠ (⟨"bio two", "h2", []⟩, "abc") := by
  decide

/-- C3, amended: fuzzy resolution compares the lower-cased query against
the lower-cased keys with the `0.6` ratio cutoff.  It returns `none` on
an empty catalog and when no key clears the cutoff; any returned name is
an original-cased catalog key that clears the cutoff and whose ratio is
maximal among the keys.  For a query whose lower-casing equals some
key's lower-casing (in particular any catalog show name queried
verbatim), it returns the *first* such key and that key's own record —
the show's own record exactly when no earlier key collides
case-insensitively. -/
theorem C3_fuzzy_resolution (metadata : Catalog) (query : String) :
    (metadata = [] → find_best_match_name metadata query = none) ∧
    ((∀ name ∈ metadata.map Prod.fst,
        cutoffOK (pyLowerD name) (pyLowerD query) = false) →
      find_best_match_name metadata query = none) ∧
    (∀ r, find_best_match_name metadata query = some r →
      r ∈ metadata.map Prod.fst ∧
      (cutoffOK (pyLowerD r) (pyLowerD query) = true ∧
      ∀ name ∈ metadata.map Prod.fst,
        cutoffOK (pyLowerD name) (pyLowerD query) = true →
          ratioNum (pyLowerD name) (pyLowerD query)
              * ratioDen (pyLowerD r) (pyLowerD query) ≤
            ratioNum (pyLowerD r) (pyLowerD query)
              * ratioDen (pyLowerD name) (pyLowerD query))) ∧
    (∀ pr, metadata.find?
        (fun p => decide (pyLowerD p.1 = pyLowerD query)) = some pr →
      find_best_match_meta metadata query = (pr.2, pr.1)) := by
  refine ⟨fun he => ?_, fun h => find_best_match_name_below_cutoff h,
    fun r hr => ⟨find_best_match_name_mem hr, find_best_match_name_score hr⟩,
    fun pr hpr => find_best_match_meta_collide hpr⟩
  subst he
  rfl

set_option maxRecDepth 100000 in
/-- C3, witness: the empty catalog misses; a far-off query misses; an
exact catalog name resolves to its own record. -/
theorem C3_fuzzy_resolution_witness :
    find_best_match_name [] "anything" = none ∧
    find_best_match_name [("Zzz", ⟨"", "", []⟩)] "Morning" = none ∧
    find_best_match_meta [("Ambient Hour", ⟨"b", "h", ["x"]⟩)] "Ambient Hour"
      = (⟨"b", "h", ["x"]⟩, "Ambient Hour") := by
  refine ⟨(C3_fuzzy_resolution [] "anything").1 rfl,
    (C3_fuzzy_resolution [("Zzz", ⟨"", "", []⟩)] "Morning").2.1 (by decide),
    ?_⟩
  exact (C3_fuzzy_resolution [("Ambient Hour", ⟨"b", "h", ["x"]⟩)]
    "Ambient Hour").2.2.2 ("Ambient Hour", ⟨"b", "h", ["x"]⟩) (by decide)

/-- C5: the description concatenates, in order, the stripped catalog bio
if non-empty and, only if the date argument is truthy, the tracklist
line built from the matched show name (lower-cased, spaces to hyphens)
and the date string, joined with a blank line; when both parts are
absent, the fixed default description is used.  In particular: bio only
— the bio alone; nothing — the default string; both — bio, blank line,
tracklist line; date only — the tracklist line alone. -/
theorem C5_description (metadata : Catalog) (c : UploadCall)
    (rec : ShowRecord) (mn : String)
    (h : find_best_match_meta metadata (resolvedShowName c.mp3Path c.title)
      = (rec, mn)) :
    (optStrTruthy c.dateStr = false → pyStrip rec.bio ≠ "" →
      (buildRequest metadata c).description = pyStrip rec.bio) ∧
    (optStrTruthy c.dateStr = false → pyStrip rec.bio = "" →
      (buildRequest metadata c).description = defaultDescription) ∧
    (optStrTruthy c.dateStr = true → pyStrip rec.bio ≠ "" →
      (buildRequest metadata c).description
        = pyStrip rec.bio ++ "\n\n"
          ++ tracklistLine mn (pyFStrOpt c.dateStr)) ∧
    (optStrTruthy c.dateStr = true → pyStrip rec.bio = "" →
      (buildRequest metadata c).description
        = tracklistLine mn (pyFStrOpt c.dateStr)) := by
  have hdesc : (buildRequest metadata c).description =
      (if String.intercalate "\n\n"
          ((if pyStrip rec.bio ≠ "" then [pyStrip rec.bio] else []) ++
           (if optStrTruthy c.dateStr then
              [tracklistLine mn (pyFStrOpt c.dateStr)] else [])) = ""
       then defaultDescription
       else String.intercalate "\n\n"
          ((if pyStrip rec.bio ≠ "" then [pyStrip rec.bio] else []) ++
           (if optStrTruthy c.dateStr then
              [tracklistLine mn (pyFStrOpt c.dateStr)] else []))) := by
    show (if String.intercalate "\n\n"
        ((if pyStrip (find_best_match_meta metadata
            (resolvedShowName c.mp3Path c.title)).1.bio ≠ "" then
            [pyStrip (find_best_match_meta metadata
              (resolvedShowName c.mp3Path c.title)).1.bio] else []) ++
         (if optStrTruthy c.dateStr then
            [tracklistLine (find_best_match_meta metadata
              (resolvedShowName c.mp3Path c.title)).2
              (pyFStrOpt c.dateStr)] else [])) = ""
      then defaultDescription
      else _) = _
    rw [h]
  refine ⟨fun hd hb => ?_, fun hd hb => ?_, fun hd hb => ?_, fun hd hb => ?_⟩
  · rw [hdesc, hd, if_pos hb]
    simp only [if_false, Bool.false_eq_true, List.append_nil]
    rw [intercalate_single, if_neg hb]
  · have hbneg : ¬(pyStrip rec.bio ≠ "") := by simp [hb]
    rw [hdesc, hd, if_neg hbneg]
    simp only [if_false, Bool.false_eq_true, List.nil_append]
    rw [show ("\n\n".intercalate ([] : List String) : String) = "" from rfl,
      if_pos rfl]
  · rw [hdesc, hd, if_pos hb]
    simp only [if_true, List.singleton_append]
    rw [intercalate_pair,
      if_neg (append_ne_empty_left _ (append_ne_empty_left _ hb))]
  · have hbneg : ¬(pyStrip rec.bio ≠ "") := by simp [hb]
    rw [hdesc, hd, if_neg hbneg]
    simp only [if_true, List.nil_append]
    rw [intercalate_single, if_neg (tracklistLine_ne_empty _ _)]

set_option maxRecDepth 100000 in
/-- C5, witness: bio and date both present — bio, blank line, tracklist
line. -/
theorem C5_description_witness :
    (buildRequest [("Jazz Corner", ⟨"Smooth.", "DJ Q", []⟩)]
      ⟨"jazz.mp3", some "Jazz Corner", none, none, some "2023-05-07"⟩).description
      = "Smooth.\n\nTracklist: http://dublab.cat/shows/jazz-corner/2023-05-07" := by
  have h := (C5_description [("Jazz Corner", ⟨"Smooth.", "DJ Q", []⟩)]
    ⟨"jazz.mp3", some "Jazz Corner", none, none, some "2023-05-07"⟩
    ⟨"Smooth.", "DJ Q", []⟩ "Jazz Corner" (by decide)).2.2.1 rfl (by decide)
  rw [h]
  decide

/-- C7, counterexample: the resolved show name is *not* "the base name
with its extension stripped": a `.wav` file keeps its extension
(`replace(".mp3", "")` only targets `.mp3`), and every occurrence of the
substring `.mp3` is removed, not just a trailing extension. -/
theorem C7_counterexample :
    resolvedShowName "song.wav" none = "song.wav" ∧
    ("song.wav" : String) ≠ "song" ∧
    resolvedShowName "a.mp3.mp3" none = "a" ∧
    ("a" : String) ≠ "a.mp3" := by
  decide

/-- C7, amended: the resolved show name is the supplied title when a
truthy (non-empty) one is provided, and otherwise the audio file's base
name with every occurrence of the substring `".mp3"` removed; when fuzzy
resolution finds no catalog match, the upload proceeds with the literal
resolved name and empty catalog fields, and its success is decided
solely by the response status — never failed for the metadata miss. -/
theorem C7_show_identity (metadata : Catalog) (c : UploadCall) :
    (∀ t, c.title = some t → t ≠ "" →
      resolvedShowName c.mp3Path c.title = t) ∧
    ((c.title = none ∨ c.title = some "") →
      resolvedShowName c.mp3Path c.title
        = ⟨removeDotMp3 (basename c.mp3Path).data⟩) ∧
    (find_best_match_name metadata (resolvedShowName c.mp3Path c.title)
        = none →
      (buildRequest metadata c).matchedName
        = resolvedShowName c.mp3Path c.title ∧
      (buildRequest metadata c).finalHost = pyOrStr c.host "" ∧
      (buildRequest metadata c).finalTags = pyOrList c.tags [] ∧
      ∀ (st : AuthState) (status : Nat),
        (uploadOutcome metadata c st status).2.1 = decide (status = 200)) := by
  refine ⟨fun t ht hne => ?_, fun ht => ?_, fun hmiss => ?_⟩
  · unfold resolvedShowName pyOrStr
    rw [ht]
    simp [hne]
  · rcases ht with ht | ht <;> (unfold resolvedShowName pyOrStr; rw [ht])
    simp
  · have hmeta : find_best_match_meta metadata
        (resolvedShowName c.mp3Path c.title)
        = (emptyRecord, resolvedShowName c.mp3Path c.title) := by
      unfold find_best_match_meta
      rw [hmiss]
    refine ⟨?_, ?_, ?_, fun st status => ?_⟩
    · show (find_best_match_meta metadata
        (resolvedShowName c.mp3Path c.title)).2 = _
      rw [hmeta]
    · show pyOrStr c.host (pyStrip (find_best_match_meta metadata
        (resolvedShowName c.mp3Path c.title)).1.host) = _
      rw [hmeta]
      rfl
    · show pyOrList c.tags ((find_best_match_meta metadata
        (resolvedShowName c.mp3Path c.title)).1.tags.take 5) = _
      rw [hmeta]
      rfl
    · unfold uploadOutcome uploadSubmit
      by_cases hs : status = 200
      · subst hs
        simp
      · by_cases h4 : status = 401 ∨ status = 403
        · simp [hs, h4]
        · simp [hs, h4]

set_option maxRecDepth 100000 in
/-- C7, witness: a truthy title wins; a path's base name loses all
`.mp3` occurrences; on an empty catalog the upload keeps the literal
name and a 200 still succeeds. -/
theorem C7_show_identity_witness :
    resolvedShowName "mix.mp3" (some "My Show") = "My Show" ∧
    resolvedShowName "dir/mix.mp3" none = "mix" ∧
    (buildRequest [] ⟨"mix.mp3", none, none, none, none⟩).matchedName
      = "mix" ∧
    (uploadOutcome [] ⟨"mix.mp3", none, none, none, none⟩
      ⟨none, none⟩ 200).2.1 = true := by
  have h := C7_show_identity [] ⟨"mix.mp3", none, none, none, none⟩
  refine ⟨(C7_show_identity []
      ⟨"mix.mp3", some "My Show", none, none, none⟩).1 "My Show" rfl
      (by decide),
    ?_, ?_, ?_⟩
  · have h2 := (C7_show_identity []
      ⟨"dir/mix.mp3", none, none, none, none⟩).2.1 (Or.inl rfl)
    rw [h2]
    decide
  · have h3 := (h.2.2 rfl).1
    rw [h3]
    decide
  · have h4 := (h.2.2 rfl).2.2.2 ⟨none, none⟩ 200
    rw [h4]
    decide

end MixcloudUploader
